import Mathlib

/-!
Verification development for the information-retrieval repository.

The repository has two programs:

* `dataset-csv.py` — scrapes dataset metadata (id, title, description) from a
  registry, skipping records whose fetch fails or whose fields are missing,
  and writes the surviving entries as a JSON array.

* `optimize_scoring_function_partial-checkpoint.py` — builds six embedding
  caches (query/document × title/details/feature), ranks every document for
  every query by a weighted sum of per-field dot products (with a per-document
  weight override when `feature_summary == "[UNAVAILABLE]"`), and tunes the
  weight triple by coordinate hill-climbing against a top-10 self-retrieval
  accuracy metric (`eval_metric`), which applies one global weight triple to
  every pair.

Real vectors are modelled as `List ℚ`; the external embedding model is opaque,
so the populated caches appear as total functions from record id to vector
(the script's precondition is that every id is cached).  Python's
`sorted(..., reverse=True)` is a stable descending sort, modelled by
`List.mergeSort` with the comparison `score b ≤ score a`.  Python's
`correct / total` raises `ZeroDivisionError` when `total = 0`, so
`eval_metric` returns an `Option`.
-/

namespace IR

/-- A data record of the input JSON: fields `id`, `query`, `title`,
`details`, `feature_summary` (the last may be the sentinel
`"[UNAVAILABLE]"`). -/
structure Record where
  id : String
  query : String
  title : String
  details : String
  feature_summary : String
deriving DecidableEq, Repr

/-- The in-memory state after the embedding pass: the record list `data` and
the six populated embedding caches (`query_emb_*`, `doc_emb_*`), each keyed by
record id.  The caches are total functions because the script's precondition
is that every record id has been cached before ranking begins. -/
structure Ctx where
  data : List Record
  query_emb_title : String → List ℚ
  query_emb_details : String → List ℚ
  query_emb_feature : String → List ℚ
  doc_emb_title : String → List ℚ
  doc_emb_details : String → List ℚ
  doc_emb_feature : String → List ℚ

/-- `dot_product`: the inner product of two equal-length vectors
(`torch.dot(a, b).item()`; the script only ever forms it between embeddings
of the fixed model dimension). -/
def dot_product (a b : List ℚ) : ℚ :=
  (List.zipWith (fun x y => x * y) a b).sum

/-- The id sequence of the caches: dict keys in insertion order, which is the
order of `data` (the script assumes record ids are distinct). -/
def docIds (ctx : Ctx) : List String :=
  ctx.data.map (fun r => r.id)

/-- `data_dict[did]`: the record stored under `did` by
`{item["id"]: item for item in data}` — later records overwrite earlier ones,
hence the lookup over the reversed list. -/
def data_dict (data : List Record) (did : String) : Option Record :=
  data.reverse.find? (fun r => r.id == did)

/-- The `feature_summary` field consulted by the ranking loop for document
`did` (`record["feature_summary"]`; every `did` passed in comes from the
cache keys, so the lookup always succeeds and the `""` default is dead). -/
def featureOf (ctx : Ctx) (did : String) : String :=
  ((data_dict ctx.data did).map (fun r => r.feature_summary)).getD ""

/-- The per-document weight triple of the ranking loop:
`(0.1, 0.9, 0.0)` when the document's `feature_summary` is
`"[UNAVAILABLE]"`, else the default `(0.1, 0.6, 0.3)`. -/
def docWeights (fs : String) : ℚ × ℚ × ℚ :=
  if fs = "[UNAVAILABLE]" then ((0.1 : ℚ), (0.9 : ℚ), (0.0 : ℚ))
  else ((0.1 : ℚ), (0.6 : ℚ), (0.3 : ℚ))

/-- The composite similarity used by `eval_metric`: one global weight triple
`w` applied to every query-document pair,
`w₁·dot(q_title,d_title) + w₂·dot(q_details,d_details) + w₃·dot(q_feature,d_feature)`. -/
def globalScore (ctx : Ctx) (w : ℚ × ℚ × ℚ) (rid cid : String) : ℚ :=
  w.1 * dot_product (ctx.query_emb_title rid) (ctx.doc_emb_title cid)
    + w.2.1 * dot_product (ctx.query_emb_details rid) (ctx.doc_emb_details cid)
    + w.2.2 * dot_product (ctx.query_emb_feature rid) (ctx.doc_emb_feature cid)

/-- `composite_score` of the ranking loop: the same weighted sum, but with
the weight triple chosen per document by `featureOf`. -/
def composite_score (ctx : Ctx) (qid did : String) : ℚ :=
  globalScore ctx (docWeights (featureOf ctx did)) qid did

/-- `ranked_doc_ids` for one query:
`sorted(scores, key=scores.get, reverse=True)` — a stable descending sort of
the document ids (in cache insertion order) by composite score. -/
def rank (ctx : Ctx) (qid : String) : List String :=
  (docIds ctx).mergeSort
    (fun a b => decide (composite_score ctx qid b ≤ composite_score ctx qid a))

/-- The ranking inside `eval_metric` for one query: the same stable
descending sort, but scoring with the global candidate weights. -/
def evalRank (ctx : Ctx) (w : ℚ × ℚ × ℚ) (rid : String) : List String :=
  (docIds ctx).mergeSort
    (fun a b => decide (globalScore ctx w rid b ≤ globalScore ctx w rid a))

/-- `eval_metric(weights)`: the fraction of queries whose own id appears in
the first 10 entries of their descending ranking under the global weights.
The script computes `correct / total` with no emptiness guard; with
`total = 0` Python raises `ZeroDivisionError`, modelled here as `none`. -/
def eval_metric (ctx : Ctx) (w : ℚ × ℚ × ℚ) : Option ℚ :=
  let ids := docIds ctx
  let total := ids.length
  let correct :=
    (ids.filter (fun rid => decide (rid ∈ (evalRank ctx w rid).take 10))).length
  if total = 0 then none else some ((correct : ℚ) / (total : ℚ))

/-- The total-valued body of `eval_metric`, defined whenever the record set
is non-empty (the only case in which the script reaches the division). -/
def eval_metric_val (ctx : Ctx) (w : ℚ × ℚ × ℚ) : ℚ :=
  (((docIds ctx).filter
      (fun rid => decide (rid ∈ (evalRank ctx w rid).take 10))).length : ℚ)
    / ((docIds ctx).length : ℚ)

/-! ### Hill climbing

The optimizer state is the pair (`current_weights`, `current_metric`).  The
loop body is generic in the metric function `f` (in the script,
`f = eval_metric` on the fixed caches). -/

/-- The optimizer's mutable state: `current_weights` (a list of three
rationals) and `current_metric`. -/
structure HCState where
  weights : List ℚ
  metric : ℚ
deriving DecidableEq, Repr

/-- One candidate trial of the inner loop body:
`candidate = current.copy(); candidate[i] += delta;`
`if candidate[i] < 0: continue;` evaluate, and accept (updating both weights
and metric) exactly when the candidate metric strictly exceeds the current
one.  Returns the new state and whether the candidate was accepted. -/
def tryCandidate (f : List ℚ → ℚ) (st : HCState) (i : Nat) (delta : ℚ) :
    HCState × Bool :=
  let candidate := st.weights.set i (st.weights.getD i 0 + delta)
  if candidate.getD i 0 < 0 then (st, false)
  else
    let candidate_metric := f candidate
    if st.metric < candidate_metric then (⟨candidate, candidate_metric⟩, true)
    else (st, false)

/-- One candidate trial threaded through the `improved` flag (`improved`
stays `true` once any candidate of the pass has been accepted). -/
def stepCand (f : List ℚ → ℚ) (acc : HCState × Bool) (i : Nat) (delta : ℚ) :
    HCState × Bool :=
  let r := tryCandidate f acc.1 i delta
  (r.1, acc.2 || r.2)

/-- One full iteration of the while-loop body: `improved = False`, then
`for i in range(3): for delta in [step_size, -step_size]: ...`. -/
def hcPass (f : List ℚ → ℚ) (step : ℚ) (st : HCState) : HCState × Bool :=
  (List.range 3).foldl
    (fun acc i => [step, -step].foldl (fun a delta => stepCand f a i delta) acc)
    (st, false)

/-- The while-loop `while improved and iteration < max_iters`, with the
remaining iteration budget as fuel: run one pass; recurse only if it
improved. -/
def hcLoop (f : List ℚ → ℚ) (step : ℚ) : Nat → HCState → HCState
  | 0, st => st
  | n + 1, st =>
    let r := hcPass f step st
    if r.2 then hcLoop f step n r.1 else r.1

/-- The state after exactly `n` forced passes (used to describe where the
loop stops). -/
def passState (f : List ℚ → ℚ) (step : ℚ) : Nat → HCState → HCState
  | 0, st => st
  | n + 1, st => passState f step n (hcPass f step st).1

/-- The initial weights `[0.1, 0.6, 0.3]`. -/
def initWeights : List ℚ := [(0.1 : ℚ), (0.6 : ℚ), (0.3 : ℚ)]

/-- The optimizer's initial state: the default weights and their metric. -/
def initState (f : List ℚ → ℚ) : HCState :=
  ⟨initWeights, f initWeights⟩

/-- The whole hill-climbing run: `step_size = 0.05`, `max_iters = 100`. -/
def hillClimb (f : List ℚ → ℚ) : HCState :=
  hcLoop f (0.05 : ℚ) 100 (initState f)

/-! ### Dataset scraper (`dataset-csv.py`) -/

/-- The listing entry `dataset_info` for one id; `get('name')` may be
absent (`none`) or present. -/
structure DatasetInfo where
  name : Option String
deriving DecidableEq, Repr

/-- The detail object returned by `get_dataset`; `description` may be
absent. -/
structure Dataset where
  description : Option String
deriving DecidableEq, Repr

/-- One output entry of `dataset_descriptions.json`. -/
structure Entry where
  id : String
  title : String
  description : String
deriving DecidableEq, Repr

/-- Python truthiness of an optional string: present and non-empty. -/
def truthyStr : Option String → Bool
  | some s => decide (s ≠ "")
  | none => false

/-- The output entry (if any) contributed by one listing item: `[]` when the
fetch raises, when the id is falsy (`0`), or when name/description fail the
truthiness checks; otherwise the single validated entry. -/
def entriesOf (fetch : Nat → Except String Dataset) (item : Nat × DatasetInfo) :
    List Entry :=
  match fetch item.1 with
  | Except.error _ => []
  | Except.ok ds =>
    if item.1 ≠ 0 ∧ truthyStr item.2.name ∧ truthyStr ds.description then
      [⟨toString item.1, item.2.name.getD "", ds.description.getD ""⟩]
    else []

/-- The console line printed for one listing item. -/
def logOf (fetch : Nat → Except String Dataset) (item : Nat × DatasetInfo) :
    String :=
  match fetch item.1 with
  | Except.error e => "Error fetching dataset " ++ toString item.1 ++ ": " ++ e
  | Except.ok ds =>
    if item.1 ≠ 0 ∧ truthyStr item.2.name ∧ truthyStr ds.description then
      "Processed dataset " ++ toString item.1 ++ ": " ++ item.2.name.getD ""
    else "Skipping dataset " ++ toString item.1 ++ ": Missing or invalid data"

/-- One step of the scrape loop, accumulating the output list and the
console log. -/
def scrapeStep (fetch : Nat → Except String Dataset)
    (acc : List Entry × List String) (item : Nat × DatasetInfo) :
    List Entry × List String :=
  (acc.1 ++ entriesOf fetch item, acc.2 ++ [logOf fetch item])

/-- The scrape loop over all listing items: returns
(`dataset_info_list`, console log). -/
def scrape (fetch : Nat → Except String Dataset)
    (items : List (Nat × DatasetInfo)) : List Entry × List String :=
  items.foldl (scrapeStep fetch) ([], [])

/-! ### Spec-side description of one optimizer pass

The spec describes one iteration as a flat enumeration of six candidates in
the order coordinate 0, 1, 2 (outer) and `+step` then `-step` (inner),
accepting the first strict improvement and updating the state immediately.
These definitions follow the spec's words, to be compared with `hcPass`. -/

/-- Spec-side candidate order: `(0,+s), (0,-s), (1,+s), (1,-s), (2,+s), (2,-s)`. -/
def specCandidates (step : ℚ) : List (Nat × ℚ) :=
  [(0, step), (0, -step), (1, step), (1, -step), (2, step), (2, -step)]

/-- Spec-side pass: fold the six candidates in order through the greedy
accept-and-update step. -/
def specPass (f : List ℚ → ℚ) (step : ℚ) (st : HCState) : HCState × Bool :=
  (specCandidates step).foldl (fun acc c => stepCand f acc c.1 c.2) (st, false)

/-! ### Concrete contexts for witnesses and counterexample checks -/

/-- A record with an available feature summary. -/
def recA : Record := ⟨"A", "qA", "tA", "dA", "fA"⟩

/-- A record whose `feature_summary` is the `"[UNAVAILABLE]"` sentinel. -/
def recB : Record := ⟨"B", "qB", "tB", "dB", "[UNAVAILABLE]"⟩

/-- A second available record with id `"B"` (for tie-breaking checks). -/
def recB2 : Record := ⟨"B", "qB", "tB", "dB", "fB"⟩

/-- A context whose corpus holds one available document and one
`"[UNAVAILABLE]"` document; the details dot products are 0 and the feature
dot products are 1, so the override visibly changes the score. -/
def ctxC : Ctx where
  data := [recA, recB]
  query_emb_title := fun _ => [1]
  query_emb_details := fun _ => [1]
  query_emb_feature := fun _ => [1]
  doc_emb_title := fun _ => [1]
  doc_emb_details := fun _ => [0]
  doc_emb_feature := fun _ => [1]

/-- A context with two available documents and constant embeddings, so every
pair has the same composite score (exact ties). -/
def ctxT : Ctx where
  data := [recA, recB2]
  query_emb_title := fun _ => [1]
  query_emb_details := fun _ => [1]
  query_emb_feature := fun _ => [1]
  doc_emb_title := fun _ => [1]
  doc_emb_details := fun _ => [1]
  doc_emb_feature := fun _ => [1]

/-- A fetch function for scraper checks: id 1 raises, other ids return a
valid description. -/
def fetchW : Nat → Except String Dataset :=
  fun n => if n = 1 then Except.error "boom" else Except.ok ⟨some "descW"⟩

/-- Listing items for scraper checks: a failing id between two good ones. -/
def itemsW : List (Nat × DatasetInfo) :=
  [(2, ⟨some "nameTwo"⟩), (1, ⟨some "nameOne"⟩), (3, ⟨some "nameThree"⟩)]

/-! ### Claim theorems -/

/-- C1: the composite score used by the ranking pass equals the weighted sum
of the three per-field dot products, with the weight triple chosen by the
document's `feature_summary`: `(0.1, 0.9, 0.0)` when it equals
`"[UNAVAILABLE]"` (so the feature term contributes exactly 0 to that
document's score), and `(0.1, 0.6, 0.3)` otherwise. -/
theorem C1_composite_score_formula (ctx : Ctx) (qid did : String) :
    composite_score ctx qid did =
      (docWeights (featureOf ctx did)).1 *
          dot_product (ctx.query_emb_title qid) (ctx.doc_emb_title did)
        + (docWeights (featureOf ctx did)).2.1 *
            dot_product (ctx.query_emb_details qid) (ctx.doc_emb_details did)
        + (docWeights (featureOf ctx did)).2.2 *
            dot_product (ctx.query_emb_feature qid) (ctx.doc_emb_feature did)
    ∧ (featureOf ctx did = "[UNAVAILABLE]" →
        docWeights (featureOf ctx did) = ((1 : ℚ)/10, (9 : ℚ)/10, 0)
        ∧ composite_score ctx qid did =
            (1 : ℚ)/10 * dot_product (ctx.query_emb_title qid) (ctx.doc_emb_title did)
            + (9 : ℚ)/10 * dot_product (ctx.query_emb_details qid) (ctx.doc_emb_details did))
    ∧ (featureOf ctx did ≠ "[UNAVAILABLE]" →
        docWeights (featureOf ctx did) = ((1 : ℚ)/10, (3 : ℚ)/5, (3 : ℚ)/10))
    ∧ rank ctx qid = (docIds ctx).mergeSort
        (fun a b => decide (composite_score ctx qid b ≤ composite_score ctx qid a)) := by
  refine ⟨rfl, fun h => ?_, fun h => ?_, rfl⟩
  · have hw : docWeights (featureOf ctx did) = ((1 : ℚ)/10, (9 : ℚ)/10, 0) := by
      rw [docWeights, if_pos h]; norm_num
    refine ⟨hw, ?_⟩
    simp only [composite_score, globalScore, hw]
    ring
  · rw [docWeights, if_neg h]; norm_num

/-- Witness for C1: in `ctxC` the document `"B"` has the `"[UNAVAILABLE]"`
sentinel, so its score is the two-term sum with no feature contribution. -/
theorem C1_witness :
    featureOf ctxC "B" = "[UNAVAILABLE]"
    ∧ composite_score ctxC "A" "B" =
        (1 : ℚ)/10 * dot_product (ctxC.query_emb_title "A") (ctxC.doc_emb_title "B")
        + (9 : ℚ)/10 * dot_product (ctxC.query_emb_details "A") (ctxC.doc_emb_details "B") :=
  ⟨by decide, ((C1_composite_score_formula ctxC "A" "B").2.1 (by decide)).2⟩

/-- C2: the score used inside `eval_metric` applies the one global weight
triple to every pair and never consults `feature_summary` (it is invariant
under changing the records while keeping the embeddings), and on the corpus
`ctxC`, which contains an `"[UNAVAILABLE]"` document, its default-weight
score differs from the composite score that produced the persisted
ranking. -/
theorem C2_eval_metric_ignores_override :
    (∀ (ctx ctx2 : Ctx) (w : ℚ × ℚ × ℚ) (rid cid : String),
      ctx.query_emb_title = ctx2.query_emb_title →
      ctx.query_emb_details = ctx2.query_emb_details →
      ctx.query_emb_feature = ctx2.query_emb_feature →
      ctx.doc_emb_title = ctx2.doc_emb_title →
      ctx.doc_emb_details = ctx2.doc_emb_details →
      ctx.doc_emb_feature = ctx2.doc_emb_feature →
      globalScore ctx w rid cid = globalScore ctx2 w rid cid)
    ∧ featureOf ctxC "B" = "[UNAVAILABLE]"
    ∧ globalScore ctxC ((0.1 : ℚ), (0.6 : ℚ), (0.3 : ℚ)) "A" "B" ≠
        composite_score ctxC "A" "B" := by
  refine ⟨?_, by decide, ?_⟩
  · intro ctx ctx2 w rid cid h1 h2 h3 h4 h5 h6
    simp [globalScore, h1, h2, h3, h4, h5, h6]
  · have hf : featureOf ctxC "B" = "[UNAVAILABLE]" := by decide
    have hw : docWeights (featureOf ctxC "B") = ((1 : ℚ)/10, (9 : ℚ)/10, 0) := by
      rw [hf, docWeights, if_pos rfl]; norm_num
    simp only [composite_score, hw, globalScore]
    norm_num [dot_product, ctxC]

/-- Witness for C2, discharging the embedding-equality hypotheses at
`ctxC` itself. -/
theorem C2_witness :
    globalScore ctxC ((0.1 : ℚ), (0.6 : ℚ), (0.3 : ℚ)) "A" "A" =
      globalScore ctxC ((0.1 : ℚ), (0.6 : ℚ), (0.3 : ℚ)) "A" "A" :=
  C2_eval_metric_ignores_override.1 ctxC ctxC ((0.1 : ℚ), (0.6 : ℚ), (0.3 : ℚ))
    "A" "A" rfl rfl rfl rfl rfl rfl

/-- C8: for a fixed document-weight regime the score is linear in each
weight component (explicit weighted-sum form, additivity and homogeneity),
and scaling all three weights by a positive constant multiplies every score
by that constant and leaves the descending ranking, ties included,
unchanged. -/
theorem C8_score_linear_scaling :
    (∀ (ctx : Ctx) (a b c : ℚ) (rid cid : String),
      globalScore ctx (a, b, c) rid cid =
        a * dot_product (ctx.query_emb_title rid) (ctx.doc_emb_title cid)
        + b * dot_product (ctx.query_emb_details rid) (ctx.doc_emb_details cid)
        + c * dot_product (ctx.query_emb_feature rid) (ctx.doc_emb_feature cid))
    ∧ (∀ (ctx : Ctx) (a b c a2 b2 c2 : ℚ) (rid cid : String),
        globalScore ctx (a + a2, b + b2, c + c2) rid cid =
          globalScore ctx (a, b, c) rid cid + globalScore ctx (a2, b2, c2) rid cid)
    ∧ (∀ (ctx : Ctx) (k a b c : ℚ) (rid cid : String),
        globalScore ctx (k * a, k * b, k * c) rid cid =
          k * globalScore ctx (a, b, c) rid cid)
    ∧ (∀ (ctx : Ctx) (k a b c : ℚ) (rid : String),
        0 ≤ a → 0 ≤ b → 0 ≤ c → 0 < k →
        evalRank ctx (k * a, k * b, k * c) rid = evalRank ctx (a, b, c) rid) := by
  have hhom : ∀ (ctx : Ctx) (k a b c : ℚ) (rid cid : String),
      globalScore ctx (k * a, k * b, k * c) rid cid =
        k * globalScore ctx (a, b, c) rid cid := by
    intro ctx k a b c rid cid
    simp only [globalScore]
    ring
  refine ⟨fun ctx a b c rid cid => rfl, ?_, hhom, ?_⟩
  · intro ctx a b c a2 b2 c2 rid cid
    simp only [globalScore]
    ring
  · intro ctx k a b c rid _ _ _ hk
    have hcmp : (fun x y : String =>
        decide (globalScore ctx (k * a, k * b, k * c) rid y ≤
          globalScore ctx (k * a, k * b, k * c) rid x)) =
        (fun x y : String =>
          decide (globalScore ctx (a, b, c) rid y ≤ globalScore ctx (a, b, c) rid x)) := by
      funext x y
      rw [hhom ctx k a b c rid y, hhom ctx k a b c rid x]
      exact decide_eq_decide.mpr
        ⟨fun h2 => le_of_mul_le_mul_left h2 hk,
         fun h2 => mul_le_mul_of_nonneg_left h2 hk.le⟩
    rw [evalRank, evalRank, hcmp]

/-- Witness for C8: doubling the default weights leaves the ranking of the
tied context `ctxT` unchanged. -/
theorem C8_witness :
    evalRank ctxT ((2 : ℚ) * (1/10), (2 : ℚ) * (3/5), (2 : ℚ) * (3/10)) "A" =
      evalRank ctxT ((1 : ℚ)/10, (3 : ℚ)/5, (3 : ℚ)/10) "A" :=
  C8_score_linear_scaling.2.2.2 ctxT 2 (1/10) (3/5) (3/10) "A"
    (by norm_num) (by norm_num) (by norm_num) (by norm_num)

/-- C10: `eval_metric` divides the hit count by the number of cached queries
with no guard: on a non-empty record set it returns the fraction, a rational
in `[0,1]`, of queries whose own id is among the first 10 entries of the
descending ranking; on an empty record set the division by `total = 0`
makes it fail (modelled as `none`). -/
theorem C10_eval_metric_no_guard (ctx : Ctx) (w : ℚ × ℚ × ℚ) :
    (ctx.data = [] → eval_metric ctx w = none)
    ∧ (ctx.data ≠ [] →
        eval_metric ctx w = some (eval_metric_val ctx w)
        ∧ 0 ≤ eval_metric_val ctx w ∧ eval_metric_val ctx w ≤ 1
        ∧ eval_metric_val ctx w =
            (((docIds ctx).filter
                (fun rid => decide (rid ∈ (evalRank ctx w rid).take 10))).length : ℚ)
              / ((docIds ctx).length : ℚ)) := by
  constructor
  · intro h
    simp [eval_metric, docIds, h]
  · intro h
    have hlen : (docIds ctx).length ≠ 0 := by
      simp only [docIds, List.length_map, ne_eq, List.length_eq_zero]
      exact h
    refine ⟨?_, div_nonneg (Nat.cast_nonneg _) (Nat.cast_nonneg _), ?_, rfl⟩
    · simp only [eval_metric, eval_metric_val]
      rw [if_neg hlen]
    · rw [eval_metric_val, div_le_one (by exact_mod_cast Nat.pos_of_ne_zero hlen)]
      exact_mod_cast List.length_filter_le _ _

/-- Witness for C10 on the non-empty context `ctxC`. -/
theorem C10_witness :
    eval_metric ctxC ((0.1 : ℚ), (0.6 : ℚ), (0.3 : ℚ)) =
      some (eval_metric_val ctxC ((0.1 : ℚ), (0.6 : ℚ), (0.3 : ℚ)))
    ∧ 0 ≤ eval_metric_val ctxC ((0.1 : ℚ), (0.6 : ℚ), (0.3 : ℚ)) :=
  ⟨((C10_eval_metric_no_guard ctxC ((0.1 : ℚ), (0.6 : ℚ), (0.3 : ℚ))).2 (by decide)).1,
   ((C10_eval_metric_no_guard ctxC ((0.1 : ℚ), (0.6 : ℚ), (0.3 : ℚ))).2 (by decide)).2.1⟩

/-- The descending comparison used by both ranking sorts is transitive. -/
theorem descLE_trans (s : String → ℚ) :
    ∀ a b c : String, decide (s b ≤ s a) → decide (s c ≤ s b) → decide (s c ≤ s a) := by
  intro a b c hab hbc
  simp only [decide_eq_true_eq] at hab hbc ⊢
  exact le_trans hbc hab

/-- The descending comparison used by both ranking sorts is total. -/
theorem descLE_total (s : String → ℚ) :
    ∀ a b : String, decide (s b ≤ s a) || decide (s a ≤ s b) := by
  intro a b
  simpa [Bool.or_eq_true, decide_eq_true_eq] using (le_total (s b) (s a))

/-- C4: `rank(q)` is a permutation of the full document-id sequence (no
omissions; no duplicates when the ids are distinct), sorted in descending
order of composite score, with exact ties kept in the stable document-id
enumeration order. -/
theorem C4_rank_permutation (ctx : Ctx) (qid : String) :
    (rank ctx qid).Perm (docIds ctx)
    ∧ (∀ d, d ∈ rank ctx qid ↔ d ∈ docIds ctx)
    ∧ ((docIds ctx).Nodup → (rank ctx qid).Nodup)
    ∧ (rank ctx qid).Pairwise
        (fun a b => composite_score ctx qid b ≤ composite_score ctx qid a)
    ∧ (∀ a b, composite_score ctx qid a = composite_score ctx qid b →
        [a, b].Sublist (docIds ctx) → [a, b].Sublist (rank ctx qid)) := by
  have hperm : (rank ctx qid).Perm (docIds ctx) :=
    List.mergeSort_perm (docIds ctx)
      (fun a b => decide (composite_score ctx qid b ≤ composite_score ctx qid a))
  refine ⟨hperm, fun d => hperm.mem_iff, fun h => hperm.nodup_iff.mpr h, ?_, ?_⟩
  · have hs := List.sorted_mergeSort
      (descLE_trans (composite_score ctx qid)) (descLE_total (composite_score ctx qid))
      (docIds ctx)
    exact hs.imp (fun h => of_decide_eq_true h)
  · intro a b heq hsub
    exact List.pair_sublist_mergeSort
      (descLE_trans (composite_score ctx qid)) (descLE_total (composite_score ctx qid))
      (decide_eq_true heq.ge) hsub

/-- Witness for C4 on the tied context `ctxT`: the two documents have equal
scores and keep their enumeration order. -/
theorem C4_witness :
    (rank ctxT "A").Nodup ∧ ["A", "B"].Sublist (rank ctxT "A") :=
  ⟨(C4_rank_permutation ctxT "A").2.2.1 (by decide),
   (C4_rank_permutation ctxT "A").2.2.2.2 "A" "B"
     (by
       have hA : featureOf ctxT "A" = "fA" := by decide
       have hB : featureOf ctxT "B" = "fB" := by decide
       simp only [composite_score, hA, hB]
       rfl)
     (List.Sublist.refl _)⟩

/-- One-step unfolding of the while-loop. -/
theorem hcLoop_succ (f : List ℚ → ℚ) (step : ℚ) (n : Nat) (st : HCState) :
    hcLoop f step (n + 1) st =
      if (hcPass f step st).2 then hcLoop f step n (hcPass f step st).1
      else (hcPass f step st).1 := rfl

/-- A candidate trial can only keep or increase the stored metric. -/
theorem tryCandidate_metric_le (f : List ℚ → ℚ) (st : HCState) (i : Nat) (d : ℚ) :
    st.metric ≤ (tryCandidate f st i d).1.metric := by
  simp only [tryCandidate]
  by_cases h1 : (st.weights.set i (st.weights.getD i 0 + d)).getD i 0 < 0
  · rw [if_pos h1]
  · rw [if_neg h1]
    by_cases h2 : st.metric < f (st.weights.set i (st.weights.getD i 0 + d))
    · rw [if_pos h2]
      exact le_of_lt h2
    · rw [if_neg h2]

/-- Folding the inner (`±step`) loop can only keep or increase the metric. -/
theorem foldl_stepCand_metric_le (f : List ℚ → ℚ) (i : Nat) :
    ∀ (ds : List ℚ) (acc : HCState × Bool),
      acc.1.metric ≤ (ds.foldl (fun a delta => stepCand f a i delta) acc).1.metric := by
  intro ds
  induction ds with
  | nil => intro acc; exact le_refl _
  | cons d ds ih =>
    intro acc
    exact le_trans (tryCandidate_metric_le f acc.1 i d) (ih (stepCand f acc i d))

/-- One full pass can only keep or increase the metric. -/
theorem hcPass_metric_le (f : List ℚ → ℚ) (step : ℚ) (st : HCState) :
    st.metric ≤ (hcPass f step st).1.metric := by
  have main : ∀ (is : List Nat) (acc : HCState × Bool),
      acc.1.metric ≤
        (is.foldl
          (fun acc2 i => [step, -step].foldl (fun a delta => stepCand f a i delta) acc2)
          acc).1.metric := by
    intro is
    induction is with
    | nil => intro acc; exact le_refl _
    | cons i is ih =>
      intro acc
      exact le_trans (foldl_stepCand_metric_le f i [step, -step] acc) (ih _)
  exact main (List.range 3) (st, false)

/-- The whole loop can only keep or increase the metric. -/
theorem hcLoop_metric_le (f : List ℚ → ℚ) (step : ℚ) :
    ∀ (n : Nat) (st : HCState), st.metric ≤ (hcLoop f step n st).metric := by
  intro n
  induction n with
  | zero => intro st; exact le_refl _
  | succ n ih =>
    intro st
    rw [hcLoop_succ]
    by_cases h : (hcPass f step st).2
    · rw [if_pos h]
      exact le_trans (hcPass_metric_le f step st) (ih _)
    · rw [if_neg h]
      exact hcPass_metric_le f step st

/-- The metric trace along the forced-pass sequence is monotone. -/
theorem passState_metric_mono (f : List ℚ → ℚ) (step : ℚ) (st : HCState) :
    ∀ k k2 : Nat, k ≤ k2 →
      (passState f step k st).metric ≤ (passState f step k2 st).metric := by
  have hstep : ∀ (m : Nat) (st2 : HCState),
      st2.metric ≤ (passState f step m st2).metric := by
    intro m
    induction m with
    | zero => intro st2; exact le_refl _
    | succ m ih =>
      intro st2
      exact le_trans (hcPass_metric_le f step st2) (ih (hcPass f step st2).1)
  have hadd : ∀ (k : Nat) (st2 : HCState) (m : Nat),
      passState f step (k + m) st2 = passState f step m (passState f step k st2) := by
    intro k
    induction k with
    | zero =>
      intro st2 m
      have hz : (0 : Nat) + m = m := Nat.zero_add m
      rw [hz]
      rfl
    | succ k ih =>
      intro st2 m
      have hnum : k + 1 + m = k + m + 1 := by omega
      have h1 : passState f step (k + m + 1) st2 =
          passState f step m (passState f step k (hcPass f step st2).1) :=
        ih (hcPass f step st2).1 m
      rw [hnum, h1]
      rfl
  intro k k2 hkk
  obtain ⟨m, rfl⟩ : ∃ m, k2 = k + m := ⟨k2 - k, by omega⟩
  rw [hadd k st m]
  exact hstep m _

/-- Where the while-loop stops: after between 1 and `n` passes, and if it
stops before exhausting the fuel then the last executed pass reported no
improvement. -/
theorem hcLoop_stops (f : List ℚ → ℚ) (step : ℚ) :
    ∀ (n : Nat) (st : HCState), 1 ≤ n →
      ∃ k, 1 ≤ k ∧ k ≤ n ∧ hcLoop f step n st = passState f step k st
        ∧ ((hcPass f step (passState f step (k - 1) st)).2 = false ∨ k = n) := by
  intro n
  induction n with
  | zero => intro st h; omega
  | succ n ih =>
    intro st _
    by_cases h : (hcPass f step st).2
    · cases Nat.eq_zero_or_pos n with
      | inl h0 =>
        subst h0
        refine ⟨1, le_refl 1, le_refl 1, ?_, Or.inr rfl⟩
        rw [hcLoop_succ, if_pos h]
        rfl
      | inr hpos =>
        obtain ⟨k, hk1, hkn, heq, hcond⟩ := ih (hcPass f step st).1 hpos
        refine ⟨k + 1, by omega, by omega, ?_, ?_⟩
        · rw [hcLoop_succ, if_pos h]
          exact heq
        · rcases hcond with hc | hc
          · left
            have hk : k - 1 + 1 = k := by omega
            have h2 : passState f step (k + 1 - 1) st = passState f step k st := by
              rw [Nat.add_sub_cancel]
            rw [h2]
            conv_lhs => rw [← hk]
            exact hc
          · right; omega
    · refine ⟨1, le_refl 1, by omega, ?_, Or.inl ?_⟩
      · rw [hcLoop_succ, if_neg h]
        rfl
      · simpa using h

/-- With a constant metric no candidate is ever accepted, so the run returns
the initial state (lets `hillClimb` be evaluated with no rational
normalization). -/
theorem hillClimb_const (c : ℚ) : hillClimb (fun _ => c) = initState (fun _ => c) := by
  have htry : ∀ (st : HCState), st.metric = c →
      ∀ (i : Nat) (d : ℚ), tryCandidate (fun _ => c) st i d = (st, false) := by
    intro st hst i d
    simp only [tryCandidate]
    by_cases h1 : (st.weights.set i (st.weights.getD i 0 + d)).getD i 0 < 0
    · rw [if_pos h1]
    · rw [if_neg h1, if_neg (by rw [hst]; exact lt_irrefl c)]
  have hsc : ∀ (st : HCState), st.metric = c → ∀ (i : Nat) (d : ℚ),
      stepCand (fun _ => c) (st, false) i d = (st, false) := by
    intro st hst i d
    simp only [stepCand]
    rw [htry st hst i d]
    rfl
  have hpass : ∀ (st : HCState), st.metric = c →
      hcPass (fun _ => c) (0.05 : ℚ) st = (st, false) := by
    intro st hst
    have hfold : ∀ L : List (Nat × ℚ),
        L.foldl (fun acc c2 => stepCand (fun _ => c) acc c2.1 c2.2) (st, false)
          = (st, false) := by
      intro L
      induction L with
      | nil => rfl
      | cons p L ih =>
        simp only [List.foldl_cons]
        rw [hsc st hst p.1 p.2]
        exact ih
    exact hfold (specCandidates (0.05 : ℚ))
  have hloop : ∀ (n : Nat) (st : HCState), st.metric = c →
      hcLoop (fun _ => c) (0.05 : ℚ) n st = st := by
    intro n
    cases n with
    | zero => intro st _; rfl
    | succ n =>
      intro st hst
      rw [hcLoop_succ, hpass st hst]
      rfl
  exact hloop 100 (initState (fun _ => c)) rfl

/-- C3: one optimizer iteration enumerates exactly the six candidates in the
order coordinate 0, 1, 2 outer and `+step` then `-step` inner, rejects any
candidate whose perturbed component is negative, accepts exactly a candidate
whose metric strictly exceeds the current best, updating the state
immediately (so later candidates of the pass perturb the updated state), and
the run uses `step_size = 0.05` starting from `(0.1, 0.6, 0.3)`. -/
theorem C3_pass_enumeration :
    (∀ (f : List ℚ → ℚ) (step : ℚ) (st : HCState), hcPass f step st = specPass f step st)
    ∧ (∀ (f : List ℚ → ℚ) (st : HCState) (i : Nat) (d : ℚ),
        tryCandidate f st i d =
          if 0 ≤ (st.weights.set i (st.weights.getD i 0 + d)).getD i 0
              ∧ st.metric < f (st.weights.set i (st.weights.getD i 0 + d))
          then (⟨st.weights.set i (st.weights.getD i 0 + d),
                 f (st.weights.set i (st.weights.getD i 0 + d))⟩, true)
          else (st, false))
    ∧ (∀ f : List ℚ → ℚ, hillClimb f =
        hcLoop f (1/20 : ℚ) 100 ⟨[(1 : ℚ)/10, (3 : ℚ)/5, (3 : ℚ)/10],
          f [(1 : ℚ)/10, (3 : ℚ)/5, (3 : ℚ)/10]⟩) := by
  refine ⟨fun f step st => rfl, ?_, ?_⟩
  · intro f st i d
    simp only [tryCandidate]
    by_cases h1 : (st.weights.set i (st.weights.getD i 0 + d)).getD i 0 < 0
    · rw [if_pos h1, if_neg (fun hc => absurd hc.1 (not_le.mpr h1))]
    · rw [if_neg h1]
      by_cases h2 : st.metric < f (st.weights.set i (st.weights.getD i 0 + d))
      · rw [if_pos h2, if_pos ⟨not_lt.mp h1, h2⟩]
      · rw [if_neg h2, if_neg (fun hc => absurd hc.2 h2)]
  · intro f
    have hw : initWeights = [(1 : ℚ)/10, (3 : ℚ)/5, (3 : ℚ)/10] := by
      norm_num [initWeights]
    have hs : (0.05 : ℚ) = 1/20 := by norm_num
    rw [hillClimb, initState, hw, hs]

/-- C5: the stored metric is monotone non-decreasing: across each candidate
trial, each full pass, the whole loop, and along the executed-pass trace. -/
theorem C5_metric_monotone :
    (∀ (f : List ℚ → ℚ) (st : HCState) (i : Nat) (d : ℚ),
      st.metric ≤ (tryCandidate f st i d).1.metric)
    ∧ (∀ (f : List ℚ → ℚ) (step : ℚ) (st : HCState),
        st.metric ≤ (hcPass f step st).1.metric)
    ∧ (∀ (f : List ℚ → ℚ) (step : ℚ) (n : Nat) (st : HCState),
        st.metric ≤ (hcLoop f step n st).metric)
    ∧ (∀ (f : List ℚ → ℚ) (step : ℚ) (st : HCState) (k k2 : Nat), k ≤ k2 →
        (passState f step k st).metric ≤ (passState f step k2 st).metric) :=
  ⟨tryCandidate_metric_le, hcPass_metric_le,
   fun f step n st => hcLoop_metric_le f step n st, passState_metric_mono⟩

/-- Witness for C5 along a concrete two-point trace. -/
theorem C5_witness :
    (passState (fun _ => (0 : ℚ)) 1 0 ⟨[0, 0, 0], 0⟩).metric ≤
      (passState (fun _ => (0 : ℚ)) 1 1 ⟨[0, 0, 0], 0⟩).metric :=
  C5_metric_monotone.2.2.2 (fun _ => (0 : ℚ)) 1 ⟨[0, 0, 0], 0⟩ 0 1 (Nat.zero_le 1)

/-- C6: the hill-climbing loop always terminates, for every metric function:
it stops after between 1 and `max_iters = 100` passes, and if it stops short
of the cap then the final executed pass reported no strict improvement. -/
theorem C6_hill_climb_terminates (f : List ℚ → ℚ) :
    ∃ k, 1 ≤ k ∧ k ≤ 100
      ∧ hillClimb f = passState f (0.05 : ℚ) k (initState f)
      ∧ ((hcPass f (0.05 : ℚ) (passState f (0.05 : ℚ) (k - 1) (initState f))).2 = false
          ∨ k = 100) :=
  hcLoop_stops f (0.05 : ℚ) 100 (initState f) (by omega)

/-- When the perturbed coordinate is negative the trial returns `(st, false)`
without consulting the metric. -/
theorem tryCandidate_neg_skip (f : List ℚ → ℚ) (st : HCState) (i : Nat) (d : ℚ)
    (h : (st.weights.set i (st.weights.getD i 0 + d)).getD i 0 < 0) :
    tryCandidate f st i d = (st, false) := by
  simp only [tryCandidate]
  rw [if_pos h]

/-- A candidate trial preserves non-negativity of every weight component. -/
theorem tryCandidate_weights_nonneg (f : List ℚ → ℚ) (st : HCState) (i : Nat) (d : ℚ)
    (h : ∀ x ∈ st.weights, 0 ≤ x) :
    ∀ x ∈ (tryCandidate f st i d).1.weights, 0 ≤ x := by
  intro x hx
  simp only [tryCandidate] at hx
  by_cases h1 : (st.weights.set i (st.weights.getD i 0 + d)).getD i 0 < 0
  · rw [if_pos h1] at hx
    exact h x hx
  · rw [if_neg h1] at hx
    by_cases h2 : st.metric < f (st.weights.set i (st.weights.getD i 0 + d))
    · rw [if_pos h2] at hx
      by_cases hi : i < st.weights.length
      · rcases List.mem_or_eq_of_mem_set hx with hmem | hEq
        · exact h x hmem
        · rw [hEq]
          have hv : (st.weights.set i (st.weights.getD i 0 + d)).getD i 0
              = st.weights.getD i 0 + d := by
            rw [List.getD_eq_getElem?_getD, List.getElem?_set_self hi]
            rfl
          rw [← hv]
          exact not_lt.mp h1
      · rw [List.set_eq_of_length_le (Nat.le_of_not_lt hi)] at hx
        exact h x hx
    · rw [if_neg h2] at hx
      exact h x hx

/-- A pass preserves non-negativity of every weight component. -/
theorem hcPass_weights_nonneg (f : List ℚ → ℚ) (step : ℚ) (st : HCState)
    (h : ∀ x ∈ st.weights, 0 ≤ x) :
    ∀ x ∈ (hcPass f step st).1.weights, 0 ≤ x := by
  have inner : ∀ (i : Nat) (ds : List ℚ) (acc : HCState × Bool),
      (∀ x ∈ acc.1.weights, 0 ≤ x) →
      ∀ x ∈ (ds.foldl (fun a delta => stepCand f a i delta) acc).1.weights, 0 ≤ x := by
    intro i ds
    induction ds with
    | nil => intro acc hacc; exact hacc
    | cons d ds ih =>
      intro acc hacc
      exact ih (stepCand f acc i d) (tryCandidate_weights_nonneg f acc.1 i d hacc)
  have main : ∀ (is : List Nat) (acc : HCState × Bool),
      (∀ x ∈ acc.1.weights, 0 ≤ x) →
      ∀ x ∈ (is.foldl
          (fun acc2 i => [step, -step].foldl (fun a delta => stepCand f a i delta) acc2)
          acc).1.weights, 0 ≤ x := by
    intro is
    induction is with
    | nil => intro acc hacc; exact hacc
    | cons i is ih =>
      intro acc hacc
      exact ih _ (inner i [step, -step] acc hacc)
  exact main (List.range 3) (st, false) h

/-- The whole loop preserves non-negativity of every weight component. -/
theorem hcLoop_weights_nonneg (f : List ℚ → ℚ) (step : ℚ) :
    ∀ (n : Nat) (st : HCState), (∀ x ∈ st.weights, 0 ≤ x) →
      ∀ x ∈ (hcLoop f step n st).weights, 0 ≤ x := by
  intro n
  induction n with
  | zero => intro st h; exact h
  | succ n ih =>
    intro st h x hx
    rw [hcLoop_succ] at hx
    by_cases hb : (hcPass f step st).2
    · rw [if_pos hb] at hx
      exact ih _ (hcPass_weights_nonneg f step st h) x hx
    · rw [if_neg hb] at hx
      exact hcPass_weights_nonneg f step st h x hx

/-- C7: the current weight vector stays componentwise non-negative
throughout the run: a candidate whose perturbed coordinate is negative is
skipped without evaluating the metric (the result is independent of the
metric function), the loop preserves non-negativity, the starting weights
`(0.1, 0.6, 0.3)` are non-negative, and so every component of the final
weight vector is `≥ 0`. -/
theorem C7_weights_nonneg :
    (∀ (f g : List ℚ → ℚ) (st : HCState) (i : Nat) (d : ℚ),
      (st.weights.set i (st.weights.getD i 0 + d)).getD i 0 < 0 →
      tryCandidate f st i d = (st, false)
      ∧ tryCandidate f st i d = tryCandidate g st i d)
    ∧ (∀ (f : List ℚ → ℚ) (step : ℚ) (n : Nat) (st : HCState),
        (∀ x ∈ st.weights, 0 ≤ x) → ∀ x ∈ (hcLoop f step n st).weights, 0 ≤ x)
    ∧ (∀ x ∈ initWeights, (0 : ℚ) ≤ x)
    ∧ (∀ f : List ℚ → ℚ, ∀ x ∈ (hillClimb f).weights, 0 ≤ x) := by
  have hnn : ∀ x ∈ initWeights, (0 : ℚ) ≤ x := by
    intro x hx
    simp only [initWeights, List.mem_cons, List.not_mem_nil, or_false] at hx
    rcases hx with h | h | h <;> rw [h] <;> norm_num
  refine ⟨?_, fun f step => hcLoop_weights_nonneg f step, hnn, ?_⟩
  · intro f g st i d hneg
    rw [tryCandidate_neg_skip f st i d hneg, tryCandidate_neg_skip g st i d hneg]
    exact ⟨rfl, rfl⟩
  · intro f
    exact hcLoop_weights_nonneg f (0.05 : ℚ) 100 (initState f) hnn

/-- Witness for C7: a negative perturbation from the zero vector is skipped,
a concrete short run keeps components non-negative, and the first component
of the default run's final weights is non-negative. -/
theorem C7_witness :
    tryCandidate (fun _ => (1 : ℚ)) ⟨[0, 0, 0], 0⟩ 0 (-1) = (⟨[0, 0, 0], 0⟩, false)
    ∧ (0 : ℚ) ≤ (0 : ℚ)
    ∧ (0 : ℚ) ≤ (0.1 : ℚ) :=
  ⟨(C7_weights_nonneg.1 (fun _ => (1 : ℚ)) (fun _ => (2 : ℚ)) ⟨[0, 0, 0], 0⟩ 0 (-1)
      (by norm_num)).1,
   C7_weights_nonneg.2.1 (fun _ => (1 : ℚ)) 1 0 ⟨[0, 0, 0], 0⟩ (by decide) 0 (by decide),
   C7_weights_nonneg.2.2.2 (fun _ => (0 : ℚ)) (0.1 : ℚ)
     (by rw [hillClimb_const]; simp [initState, initWeights])⟩

/-- The scrape loop from an arbitrary accumulator appends the per-item
outputs and log lines. -/
theorem scrape_foldl (fetch : Nat → Except String Dataset) :
    ∀ (items : List (Nat × DatasetInfo)) (acc : List Entry × List String),
      items.foldl (scrapeStep fetch) acc
        = (acc.1 ++ (items.map (entriesOf fetch)).flatten,
           acc.2 ++ items.map (logOf fetch)) := by
  intro items
  induction items with
  | nil =>
    intro acc
    simp
  | cons item items ih =>
    intro acc
    simp only [List.foldl_cons, List.map_cons, List.flatten_cons]
    rw [ih (scrapeStep fetch acc item)]
    simp [scrapeStep, List.append_assoc]

/-- The scrape output is the concatenation of the per-item outputs, and the
log is the per-item log lines in order. -/
theorem scrape_spec (fetch : Nat → Except String Dataset)
    (items : List (Nat × DatasetInfo)) :
    scrape fetch items
      = ((items.map (entriesOf fetch)).flatten, items.map (logOf fetch)) := by
  rw [scrape, scrape_foldl fetch items ([], [])]
  simp

/-- C9: a fetch error for one dataset id is caught and logged with that id
and the run continues: the only effect on the output array is the omission
of that id's entry; and every written entry has a non-empty string title and
a non-empty string description. -/
theorem C9_scraper_resilience :
    (∀ (fetch : Nat → Except String Dataset) (xs ys : List (Nat × DatasetInfo))
        (b : Nat × DatasetInfo) (e : String), fetch b.1 = Except.error e →
      (scrape fetch (xs ++ b :: ys)).1 = (scrape fetch (xs ++ ys)).1
      ∧ ("Error fetching dataset " ++ toString b.1 ++ ": " ++ e)
          ∈ (scrape fetch (xs ++ b :: ys)).2)
    ∧ (∀ (fetch : Nat → Except String Dataset) (items : List (Nat × DatasetInfo))
        (entry : Entry), entry ∈ (scrape fetch items).1 →
        entry.title ≠ "" ∧ entry.description ≠ "") := by
  constructor
  · intro fetch xs ys b e hb
    have hent : entriesOf fetch b = [] := by
      simp [entriesOf, hb]
    have hlog : logOf fetch b = "Error fetching dataset " ++ toString b.1 ++ ": " ++ e := by
      simp [logOf, hb]
    constructor
    · rw [scrape_spec, scrape_spec]
      simp [hent]
    · rw [scrape_spec]
      exact List.mem_map.mpr
        ⟨b, List.mem_append_right xs (List.mem_cons_self b ys), hlog⟩
  · intro fetch items entry hmem
    rw [scrape_spec] at hmem
    simp only [List.mem_flatten, List.mem_map] at hmem
    obtain ⟨l, ⟨item, hitem, rfl⟩, hent⟩ := hmem
    cases hfetch : fetch item.1 with
    | error e =>
      have hnil : entriesOf fetch item = [] := by
        simp [entriesOf, hfetch]
      rw [hnil] at hent
      simp at hent
    | ok ds =>
      by_cases hc : item.1 ≠ 0 ∧ truthyStr item.2.name ∧ truthyStr ds.description
      · have hone : entriesOf fetch item
            = [⟨toString item.1, item.2.name.getD "", ds.description.getD ""⟩] := by
          simp only [entriesOf, hfetch]
          rw [if_pos hc]
        rw [hone] at hent
        simp only [List.mem_singleton] at hent
        subst hent
        obtain ⟨h0, hname, hdesc⟩ := hc
        constructor
        · cases hn : item.2.name with
          | none => rw [hn] at hname; simp [truthyStr] at hname
          | some s =>
            rw [hn] at hname
            simp only [truthyStr, decide_eq_true_eq] at hname
            simpa [hn] using hname
        · cases hd : ds.description with
          | none => rw [hd] at hdesc; simp [truthyStr] at hdesc
          | some s =>
            rw [hd] at hdesc
            simp only [truthyStr, decide_eq_true_eq] at hdesc
            simpa [hd] using hdesc
      · have hnil : entriesOf fetch item = [] := by
          simp only [entriesOf, hfetch]
          rw [if_neg hc]
        rw [hnil] at hent
        simp at hent

/-- Witness for C9 on the concrete fetch function `fetchW` (id 1 fails) and
items `itemsW`. -/
theorem C9_witness :
    (scrape fetchW itemsW).1
      = (scrape fetchW [(2, ⟨some "nameTwo"⟩), (3, ⟨some "nameThree"⟩)]).1
    ∧ Entry.title ⟨"2", "nameTwo", "descW"⟩ ≠ "" :=
  ⟨(C9_scraper_resilience.1 fetchW [(2, ⟨some "nameTwo"⟩)] [(3, ⟨some "nameThree"⟩)]
      (1, ⟨some "nameOne"⟩) "boom" rfl).1,
   (C9_scraper_resilience.2 fetchW itemsW ⟨"2", "nameTwo", "descW"⟩ (by decide)).1⟩

end IR
